import Mathlib

/-
Verification of the `nix-find-roots` garbage-collection root tracer
(`src/nix-find-roots/nix-find-roots.cc`) against its specification.

The development is a shallow embedding of the program:

* `fs::path` is modelled as its list of components (`FsPath`); an absolute
  path starts with the component "/", exactly as `fs::path` iteration yields
  it.  `fs::path::operator<` compares component-wise, each component as a
  string; `pathLt` below mirrors that.
* `std::set<fs::path>` and `std::map<fs::path, std::set<fs::path>>` are
  modelled as lists kept strictly sorted by `pathLt` (`setInsert`,
  `rootsInsert`), which is how the ordered containers iterate.
* The filesystem is a finite table from absolute paths to nodes (`FSys`);
  `statusAt` models `fs::symlink_status` (resolution of intermediate
  components through symlinks is not modelled: lookups treat intermediate
  components as directories, which covers every scenario of the spec), and
  `descendantsOf` models `fs::recursive_directory_iterator` (which yields
  every strict descendant and does not follow directory symlinks).
  Permission errors are not modelled: `statusAt` is total, so the
  `catch (fs::filesystem_error&)` handlers of the source never fire in the
  model.
* `/proc` is a separate table (`ProcFS`), since the runtime-root scanner
  reads it through dedicated probes (`readlink`, file content, maps lines).
* Exceptions are modelled with `Except`: the only `throw` that can escape in
  the model is the non-benign errno rethrow of `getRuntimeRoots`
  (source line 296), which `main` does not catch.
-/

/-! ## Paths and their order -/

/-- A filesystem path as its list of components, in the order
`fs::path` iteration yields them; `/v/gcroots/a` is `["/", "v", "gcroots", "a"]`. -/
abbrev FsPath := List String

/-- Byte-wise comparison of character lists, mirroring `std::basic_string`
comparison (identical to byte order on the ASCII paths involved). -/
def charListLt : List Char → List Char → Bool
  | [], [] => false
  | [], _ :: _ => true
  | _ :: _, [] => false
  | a :: as, b :: bs =>
    if a < b then true
    else if b < a then false
    else charListLt as bs

/-- String comparison used for single path components. -/
def strLt (a b : String) : Bool := charListLt a.data b.data

/-- Component-wise lexicographic comparison of paths, mirroring
`fs::path::operator<` (which compares the component sequences
lexicographically, each component as a string). -/
def pathLt : FsPath → FsPath → Bool
  | [], [] => false
  | [], _ :: _ => true
  | _ :: _, [] => false
  | a :: as, b :: bs =>
    if strLt a b then true
    else if strLt b a then false
    else pathLt as bs

/-- `pathLt` as a relation, for sortedness statements. -/
def PLt (a b : FsPath) : Prop := pathLt a b = true

theorem charListLt_irrefl (a : List Char) : charListLt a a = false := by
  induction a with
  | nil => rfl
  | cons x xs ih => simp [charListLt, ih]

theorem charListLt_asymm (a b : List Char) (h : charListLt a b = true) :
    charListLt b a = false := by
  induction a generalizing b with
  | nil => cases b with
    | nil => simp [charListLt] at h
    | cons y ys => simp [charListLt]
  | cons x xs ih =>
    cases b with
    | nil => simp [charListLt] at h
    | cons y ys =>
      simp only [charListLt] at h ⊢
      rcases lt_trichotomy x y with hlt | heq | hgt
      · simp [hlt, not_lt_of_lt hlt]
      · subst heq
        simp only [lt_irrefl, if_false] at h ⊢
        exact ih ys h
      · simp [hgt, not_lt_of_lt hgt] at h

theorem charListLt_trans (a b c : List Char) (hab : charListLt a b = true)
    (hbc : charListLt b c = true) : charListLt a c = true := by
  induction a generalizing b c with
  | nil =>
    cases c with
    | nil =>
      cases b with
      | nil => simpa using hab
      | cons y ys => simp [charListLt] at hbc
    | cons z zs => simp [charListLt]
  | cons x xs ih =>
    cases b with
    | nil => simp [charListLt] at hab
    | cons y ys =>
      cases c with
      | nil => simp [charListLt] at hbc
      | cons z zs =>
        simp only [charListLt] at hab hbc ⊢
        rcases lt_trichotomy x y with hxy | hxy | hxy
        · rcases lt_trichotomy y z with hyz | hyz | hyz
          · simp [lt_trans hxy hyz]
          · subst hyz; simp [hxy]
          · simp [hyz, not_lt_of_lt hyz] at hbc
        · subst hxy
          rcases lt_trichotomy x z with hyz | hyz | hyz
          · simp [hyz]
          · subst hyz
            simp only [lt_irrefl, if_false] at hab hbc ⊢
            exact ih ys zs hab hbc
          · simp [hyz, not_lt_of_lt hyz] at hbc
        · simp [hxy, not_lt_of_lt hxy] at hab

theorem charListLt_total (a b : List Char) (hab : charListLt a b = false)
    (hba : charListLt b a = false) : a = b := by
  induction a generalizing b with
  | nil => cases b with
    | nil => rfl
    | cons y ys => simp [charListLt] at hab
  | cons x xs ih =>
    cases b with
    | nil => simp [charListLt] at hba
    | cons y ys =>
      simp only [charListLt] at hab hba
      rcases lt_trichotomy x y with hlt | heq | hgt
      · simp [hlt] at hab
      · subst heq
        simp only [lt_irrefl, if_false] at hab hba
        rw [ih ys hab hba]
      · simp [hgt] at hba

theorem strLt_irrefl (a : String) : strLt a a = false := charListLt_irrefl _

theorem strLt_asymm (a b : String) (h : strLt a b = true) : strLt b a = false :=
  charListLt_asymm _ _ h

theorem strLt_trans (a b c : String) (hab : strLt a b = true) (hbc : strLt b c = true) :
    strLt a c = true := charListLt_trans _ _ _ hab hbc

theorem strLt_total (a b : String) (hab : strLt a b = false) (hba : strLt b a = false) :
    a = b := String.ext (charListLt_total a.data b.data hab hba)

theorem pathLt_irrefl (a : FsPath) : pathLt a a = false := by
  induction a with
  | nil => rfl
  | cons x xs ih => simp [pathLt, strLt_irrefl, ih]

theorem pathLt_asymm (a b : FsPath) (h : pathLt a b = true) : pathLt b a = false := by
  induction a generalizing b with
  | nil => cases b with
    | nil => simp [pathLt] at h
    | cons y ys => simp [pathLt]
  | cons x xs ih =>
    cases b with
    | nil => simp [pathLt] at h
    | cons y ys =>
      simp only [pathLt] at h ⊢
      by_cases hxy : strLt x y = true
      · simp [hxy, strLt_asymm _ _ hxy]
      · simp only [hxy, if_false] at h
        by_cases hyx : strLt y x = true
        · simp [hyx] at h
        · simp only [hyx, if_false] at h ⊢
          simp only [Bool.not_eq_true] at hxy hyx
          simp [hxy, ih ys h]

theorem pathLt_trans (a b c : FsPath) (hab : pathLt a b = true) (hbc : pathLt b c = true) :
    pathLt a c = true := by
  induction a generalizing b c with
  | nil =>
    cases c with
    | nil =>
      cases b with
      | nil => simpa using hab
      | cons y ys => simp [pathLt] at hbc
    | cons z zs => simp [pathLt]
  | cons x xs ih =>
    cases b with
    | nil => simp [pathLt] at hab
    | cons y ys =>
      cases c with
      | nil => simp [pathLt] at hbc
      | cons z zs =>
        simp only [pathLt] at hab hbc ⊢
        by_cases hxy : strLt x y = true
        · by_cases hyz : strLt y z = true
          · simp [strLt_trans _ _ _ hxy hyz]
          · by_cases hzy : strLt z y = true
            · simp [hzy, hyz] at hbc
            · simp only [Bool.not_eq_true] at hyz hzy
              have : y = z := strLt_total _ _ hyz hzy
              subst this
              simp [hxy]
        · simp only [hxy, if_false] at hab
          by_cases hyx : strLt y x = true
          · simp [hyx] at hab
          · simp only [hyx, if_false] at hab
            simp only [Bool.not_eq_true] at hxy hyx
            have : x = y := strLt_total _ _ hxy hyx
            subst this
            by_cases hxz : strLt x z = true
            · simp [hxz]
            · simp only [hxz, if_false] at hbc ⊢
              by_cases hzx : strLt z x = true
              · simp [hzx] at hbc
              · simp only [hzx, if_false] at hbc ⊢
                exact ih ys zs hab hbc

theorem pathLt_total (a b : FsPath) (hab : pathLt a b = false) (hba : pathLt b a = false) :
    a = b := by
  induction a generalizing b with
  | nil => cases b with
    | nil => rfl
    | cons y ys => simp [pathLt] at hab
  | cons x xs ih =>
    cases b with
    | nil => simp [pathLt] at hba
    | cons y ys =>
      simp only [pathLt] at hab hba
      by_cases hxy : strLt x y = true
      · simp [hxy] at hab
      · by_cases hyx : strLt y x = true
        · simp [hyx] at hba
        · simp only [hxy, hyx, if_false] at hab hba
          simp only [Bool.not_eq_true] at hxy hyx
          rw [strLt_total _ _ hxy hyx, ih ys hab hba]

/-- If `x` is neither below `y` nor equal to it, then `y` is below `x`. -/
theorem pathLt_of_not_lt_of_ne (x y : FsPath) (h : pathLt x y = false) (hne : x ≠ y) :
    pathLt y x = true := by
  by_cases hyx : pathLt y x = true
  · exact hyx
  · simp only [Bool.not_eq_true] at hyx
    exact absurd (pathLt_total x y h hyx) hne

/-! ## Ordered sets and maps over paths

`std::set<fs::path>` and `std::map<fs::path, std::set<fs::path>>` iterate in
ascending `operator<` order; they are modelled as strictly sorted lists. -/

/-- `std::set<fs::path>::insert`: ordered insertion, duplicates absorbed. -/
def setInsert (x : FsPath) : List FsPath → List FsPath
  | [] => [x]
  | y :: ys =>
    if pathLt x y then x :: y :: ys
    else if x = y then y :: ys
    else y :: setInsert x ys

/-- `Roots` (source line 106): a mapping from a store path to the set of
roots that keep it alive, as the sorted association list a `std::map` of
`std::set`s iterates as. -/
abbrev Roots := List (FsPath × List FsPath)

/-- `res.storeRoots[target].insert(root)` (source lines 161, 175):
insert `v` into the set at key `k`, creating the entry if absent. -/
def rootsInsert (k v : FsPath) : Roots → Roots
  | [] => [(k, [v])]
  | (k', vs) :: rest =>
    if pathLt k k' then (k, [v]) :: (k', vs) :: rest
    else if k = k' then (k', setInsert v vs) :: rest
    else (k', vs) :: rootsInsert k v rest

/-- One step of `std::map::insert(first, last)` (source line 361): insert the
pair `(k, vs)` only if the key `k` is not already present — `std::map::insert`
never overwrites an existing element. -/
def mapInsertKeep (k : FsPath) (vs : List FsPath) : Roots → Roots
  | [] => [(k, vs)]
  | (k', vs') :: rest =>
    if pathLt k k' then (k, vs) :: (k', vs') :: rest
    else if k = k' then (k', vs') :: rest
    else (k', vs') :: mapInsertKeep k vs rest

/-- `traceResult.storeRoots.insert(runtimeRoots.begin(), runtimeRoots.end())`
(source line 361): range-insert `extra` into `base`, keeping `base`'s entry
whenever a key occurs in both. -/
def mergeRoots (base extra : Roots) : Roots :=
  extra.foldl (fun m kv => mapInsertKeep kv.1 kv.2 m) base

/-- Map lookup (`m.find(k)`), returning the value set. -/
def lookupRoots (m : Roots) (k : FsPath) : Option (List FsPath) :=
  (m.find? (fun kv => kv.1 = k)).map (·.2)

/-! ## Configuration -/

inductive VerbosityLvl where
  | Quiet
  | Verbose
deriving DecidableEq

/-- `GlobalOpts` (source lines 40-49) with its default values. -/
structure GlobalOpts where
  storeDir : FsPath := ["/", "nix", "store"]
  stateDir : FsPath := ["/", "nix", "var", "nix"]
  socketPath : FsPath := ["/", "nix", "var", "nix", "gc-socket", "socket"]
  verbosity : VerbosityLvl := .Quiet
deriving DecidableEq

/-! ## Filesystem model and the tracer -/

/-- The link-status of a filesystem entry, as `fs::symlink_status` classifies
it: directory, symbolic link (with its raw textual target), regular file, or
any other type (socket, device, fifo). -/
inductive FNode where
  | dir
  | lnk (target : FsPath)
  | reg
  | other
deriving DecidableEq

/-- A filesystem: a finite table from absolute paths to nodes. -/
structure FSys where
  entries : List (FsPath × FNode)

/-- `fs::symlink_status(p)`: the node at `p`, `none` for `not_found`. -/
def statusAt (fs : FSys) (p : FsPath) : Option FNode :=
  (fs.entries.find? (fun e => e.1 = p)).map (·.2)

/-- `fs::recursive_directory_iterator(p)`: every entry whose path strictly
extends `p` (the iterator yields all strict descendants; it does not follow
symlinks into directories, and in the table model a symlink entry simply has
no entries below it). -/
def descendantsOf (fs : FSys) (p : FsPath) : List (FsPath × FNode) :=
  fs.entries.filter (fun e => p ≠ e.1 ∧ p.isPrefixOf e.1)

/-- `isInStore` (source lines 122-125): `std::search` of `storeDir`'s
component range anchored at the beginning of `dir`'s components, i.e. a
component-wise prefix test. -/
def isInStore (storeDir dir : FsPath) : Bool := storeDir.isPrefixOf dir

/-- `fs::path::parent_path()`. -/
def parentPath (p : FsPath) : FsPath := p.dropLast

/-- `fs::path::operator/`: if the right operand is absolute it replaces the
left one, otherwise the components are concatenated. -/
def pathAppend (a b : FsPath) : FsPath := if b.head? = some "/" then b else a ++ b

/-- `fs::path::filename()`: the last component. -/
def filename (p : FsPath) : String := p.getLast?.getD ""

/-- `TraceResult` (source lines 107-110). -/
structure TraceResult where
  storeRoots : Roots
  deadLinks : List FsPath
deriving DecidableEq

/-- The `case fs::file_type::regular` body of `followPathToStore`
(source lines 171-176): probe `opts.storeDir / root.filename()` and record
the probe path as kept alive by `root` when it exists.  (`fs::exists` is
modelled as presence in the table.) -/
def regularProbe (opts : GlobalOpts) (fs : FSys) (root : FsPath) (res : TraceResult) :
    TraceResult :=
  let possibleStorePath := opts.storeDir ++ [filename root]
  if (statusAt fs possibleStorePath).isSome then
    { res with storeRoots := rootsInsert possibleStorePath root res.storeRoots }
  else res

theorem length_filter_le_of_imp {α} (l : List α) (P Q : α → Bool)
    (h : ∀ x ∈ l, P x = true → Q x = true) :
    (l.filter P).length ≤ (l.filter Q).length := by
  induction l with
  | nil => simp
  | cons a t ih =>
    have ht : ∀ x ∈ t, P x = true → Q x = true := fun x hx => h x (List.mem_cons_of_mem _ hx)
    by_cases hP : P a = true
    · have hQ := h a (List.mem_cons_self _ _) hP
      simp [List.filter_cons, hP, hQ, Nat.succ_le_succ (ih ht)]
    · simp only [List.filter_cons, hP, if_false]
      by_cases hQ : Q a = true
      · simp only [hQ, if_true, List.length_cons]
        exact Nat.le_succ_of_le (ih ht)
      · simp only [hQ, if_false]
        exact ih ht

theorem length_filter_lt_of_imp {α} (l : List α) (P Q : α → Bool)
    (h : ∀ x ∈ l, P x = true → Q x = true)
    (a : α) (ha : a ∈ l) (haP : P a = false) (haQ : Q a = true) :
    (l.filter P).length < (l.filter Q).length := by
  induction l with
  | nil => simp at ha
  | cons b t ih =>
    have ht : ∀ x ∈ t, P x = true → Q x = true := fun x hx => h x (List.mem_cons_of_mem _ hx)
    rcases List.mem_cons.1 ha with rfl | hat
    · simp only [List.filter_cons, haP, haQ, Bool.false_eq_true, if_false, if_true,
        List.length_cons]
      exact Nat.lt_succ_of_le (length_filter_le_of_imp t P Q ht)
    · by_cases hP : P b = true
      · have hQ := h b (List.mem_cons_self _ _) hP
        simp only [List.filter_cons, hP, hQ, if_true, List.length_cons]
        exact Nat.succ_lt_succ (ih ht hat)
      · simp only [List.filter_cons, hP, Bool.false_eq_true, if_false]
        by_cases hQ : Q b = true
        · simp only [hQ, if_true, List.length_cons]
          exact Nat.lt_succ_of_lt (ih ht hat)
        · simp only [hQ, Bool.false_eq_true, if_false]
          exact ih ht hat

/-- A strict descendant has strictly fewer strict descendants; this bounds the
re-enumeration the source performs when `followPathToStore` is called on a
directory entry produced by an enclosing recursive iteration. -/
theorem descendantsOf_length_lt (fs : FSys) (p : FsPath) (e : FsPath × FNode)
    (he : e ∈ descendantsOf fs p) :
    (descendantsOf fs e.1).length < (descendantsOf fs p).length := by
  have hmem : e ∈ fs.entries ∧ (p ≠ e.1 ∧ p.isPrefixOf e.1 = true) := by
    simpa [descendantsOf, List.mem_filter, decide_eq_true_eq] using he
  obtain ⟨hent, hne, hpref⟩ := hmem
  have hppre : p <+: e.1 := List.isPrefixOf_iff_prefix.1 hpref
  have hplen : p.length < e.1.length := by
    rcases Nat.lt_or_ge p.length e.1.length with h | h
    · exact h
    · exact absurd (List.IsPrefix.eq_of_length_le hppre h) hne
  have himp : ∀ x ∈ fs.entries,
      (decide (e.1 ≠ x.1 ∧ e.1.isPrefixOf x.1 = true) = true) →
      (decide (p ≠ x.1 ∧ p.isPrefixOf x.1 = true) = true) := by
    intro x _ hx
    simp only [decide_eq_true_eq] at hx ⊢
    obtain ⟨hne1, hpref1⟩ := hx
    have h1 : e.1 <+: x.1 := List.isPrefixOf_iff_prefix.1 hpref1
    have hlen1 : e.1.length < x.1.length := by
      rcases Nat.lt_or_ge e.1.length x.1.length with h | h
      · exact h
      · exact absurd (List.IsPrefix.eq_of_length_le h1 h) hne1
    refine ⟨?_, List.isPrefixOf_iff_prefix.2 (hppre.trans h1)⟩
    intro hcontra
    rw [hcontra] at hplen
    omega
  have haP : decide (e.1 ≠ e.1 ∧ e.1.isPrefixOf e.1 = true) = false := by simp
  have haQ : decide (p ≠ e.1 ∧ p.isPrefixOf e.1 = true) = true := by
    simp only [decide_eq_true_eq]
    exact ⟨hne, hpref⟩
  exact length_filter_lt_of_imp fs.entries _ _ himp e hent haP haQ

/-- The status-dispatching `followPathToStore` (source lines 127-180).

The `int recursionsLeft` of the source is carried as
`fuel = recursionsLeft + 1` clamped at zero, so that the guard
`if (recursionsLeft < 0) return` (line 136) is exactly the `fuel = 0` case;
the initial call has `recursionsLeft = 2`, i.e. `fuel = 3`, and the symlink
recursion at line 164 passes `recursionsLeft - 1`, i.e. `fuel - 1`.

The `switch` of the source falls through from the symlink case into the
regular-file case (there is no `break` at line 170): when the symlink's
target is in the store the function returns early (line 162) and the probe
is skipped, but on every other symlink outcome — dead target, or recursion
into an out-of-store target — control continues into the
`possibleStorePath` probe with the symlink's own path.  The model reproduces
this fall-through via `regularProbe` in the `lnk` branch. -/
def followPathToStore (opts : GlobalOpts) (fs : FSys) (fuel : Nat) (root : FsPath)
    (status : Option FNode) (res : TraceResult) : TraceResult :=
  match fuel with
  | 0 => res
  | f + 1 =>
    match status with
    | some .dir =>
      (descendantsOf fs root).attach.foldl
        (fun r e => followPathToStore opts fs (f + 1) e.1.1 (some e.1.2) r) res
    | some (.lnk t) =>
      let target := pathAppend (parentPath root) t
      let tstatus := statusAt fs target
      let res1 :=
        if tstatus.isNone then { res with deadLinks := setInsert root res.deadLinks }
        else res
      if isInStore opts.storeDir target then
        { res1 with storeRoots := rootsInsert target root res1.storeRoots }
      else
        regularProbe opts fs root (followPathToStore opts fs f target tstatus res1)
    | some .reg => regularProbe opts fs root res
    | some .other => res
    | none => res
termination_by (fuel, (descendantsOf fs root).length)
decreasing_by
  · apply Prod.Lex.right
    exact descendantsOf_length_lt fs root _ e.2
  · apply Prod.Lex.left
    omega

/-- The status-computing wrapper `followPathToStore` (source lines 182-194):
look up the link-status of `root` and dispatch.  In the table model the
status lookup cannot throw, so the `catch` branch is dead. -/
def followPathToStoreOuter (opts : GlobalOpts) (fs : FSys) (recursionsLeft : Int)
    (res : TraceResult) (root : FsPath) : TraceResult :=
  followPathToStore opts fs (recursionsLeft + 1).toNat root (statusAt fs root) res

/-- `maxRecursionLevel` (source line 209). -/
def maxRecursionLevel : Int := 2

/-- `followPathsToStore` (source lines 207-214): trace every starting root
with the fixed hop budget, accumulating one `TraceResult`. -/
def followPathsToStore (opts : GlobalOpts) (fs : FSys) (roots : List FsPath) : TraceResult :=
  roots.foldl (fun res root => followPathToStoreOuter opts fs maxRecursionLevel res root)
    ⟨[], []⟩

/-! ## The runtime-root scanner -/

/-- First-character class `[0-9a-z]` of the store-path regex (line 119). -/
def isStoreNameStartChar (c : Char) : Bool :=
  ('0' ≤ c && c ≤ '9') || ('a' ≤ c && c ≤ 'z')

/-- Continuation-character class of the store-path regex
(`[0-9a-zA-Z+\-._?=]`, line 119). -/
def isStoreNameChar (c : Char) : Bool :=
  isStoreNameStartChar c || ('A' ≤ c && c ≤ 'Z') ||
    c == '+' || c == '-' || c == '.' || c == '_' || c == '?' || c == '='

/-- `fs::path::string()`: render the component list back to text. -/
def pathToString : FsPath → String
  | "/" :: rest => "/" ++ String.intercalate "/" rest
  | comps => String.intercalate "/" comps

/-- Greedy run of store-name continuation characters, returning the run and
the remaining input. -/
def takeStoreName : List Char → (List Char × List Char)
  | [] => ([], [])
  | c :: cs =>
    if isStoreNameChar c then
      let (n, r) := takeStoreName cs
      (c :: n, r)
    else ([], c :: cs)

/-- Try to match `storePathRegex` (source lines 117-120) at the start of the
input: the literal store directory, a slash, one start character and a greedy
run of continuation characters.  Returns the matched object name and the
rest of the input. -/
def matchStoreAt (sdSlash : List Char) (cs : List Char) : Option (String × List Char) :=
  if sdSlash.isPrefixOf cs then
    match cs.drop sdSlash.length with
    | [] => none
    | c :: rest =>
      if isStoreNameStartChar c then
        let (n, r) := takeStoreName rest
        some (String.mk (c :: n), r)
      else none
  else none

theorem takeStoreName_length_le (cs : List Char) :
    (takeStoreName cs).2.length ≤ cs.length := by
  induction cs with
  | nil => simp [takeStoreName]
  | cons c rest ih =>
    simp only [takeStoreName]
    by_cases h : isStoreNameChar c = true
    · simp only [h, if_true]
      exact Nat.le_succ_of_le ih
    · simp [h]

theorem matchStoreAt_length_lt (sdSlash cs : List Char) (name : String) (r : List Char)
    (h : matchStoreAt sdSlash cs = some (name, r)) : r.length < cs.length := by
  unfold matchStoreAt at h
  by_cases hp : sdSlash.isPrefixOf cs = true
  · simp only [hp, if_true] at h
    rcases hd : cs.drop sdSlash.length with _ | ⟨c, rest⟩
    · rw [hd] at h; exact absurd h (by simp)
    · rw [hd] at h
      by_cases hc : isStoreNameStartChar c = true
      · simp only [hc, if_true, Option.some.injEq, Prod.mk.injEq] at h
        have hr : r = (takeStoreName rest).2 := h.2.symm
        have h1 : r.length ≤ rest.length := hr ▸ takeStoreName_length_le rest
        have h2 : rest.length < cs.length := by
          have := congrArg List.length hd
          simp only [List.length_drop, List.length_cons] at this
          omega
        omega
      · simp [hc] at h
  · simp [hp] at h

/-- All the matches of `storePathRegex` in a text, leftmost first, each
continued past the end of the previous match, exactly as the
`std::sregex_iterator` loop of `scanFileContent` (source lines 234-238)
produces them; each match is returned as the store path it denotes
(store directory plus object name, which is how `fs::path(i->str())`
decomposes). -/
def scanStorePaths (storeDir : FsPath) (sdSlash : List Char) : List Char → List FsPath
  | [] => []
  | c :: rest =>
    match h : matchStoreAt sdSlash (c :: rest) with
    | some (name, r) => (storeDir ++ [name]) :: scanStorePaths storeDir sdSlash r
    | none => scanStorePaths storeDir sdSlash rest
termination_by cs => cs.length
decreasing_by
  · exact matchStoreAt_length_lt _ _ _ _ h
  · simp

/-- `scanFileContent` (source lines 221-239): if the file exists, record
every store path occurring in its content with the scanned file as the root.
The file content is carried in the model (`none` when the file is absent). -/
def scanFileContent (opts : GlobalOpts) (fileToScan : FsPath) (content : Option String)
    (res : Roots) : Roots :=
  match content with
  | none => res
  | some s =>
    (scanStorePaths opts.storeDir (pathToString opts.storeDir ++ "/").data s.data).foldl
      (fun r k => rootsInsert k fileToScan r) res

/-- Split a character list at slashes into components, dropping empty
components, as `fs::path` normalization does; `acc` holds the reversed
characters of the component being read. -/
def splitComps (acc : List Char) : List Char → List String
  | [] => if acc.isEmpty then [] else [String.mk acc.reverse]
  | c :: rest =>
    if c = '/' then
      if acc.isEmpty then splitComps [] rest
      else String.mk acc.reverse :: splitComps [] rest
    else splitComps (c :: acc) rest

/-- Parse a path string into its `fs::path` components (used for
`fs::path(match[1])` on a maps-line field and for command-line arguments). -/
def parsePathString (s : String) : FsPath :=
  match s.data with
  | '/' :: rest => "/" :: splitComps [] rest
  | cs => splitComps [] cs

/-- The `mapRegex` of `scanMapsFile` (source line 250):
`^\s*\S+\s+\S+\s+\S+\s+\S+\s+\S+\s+(/\S+)\s*$` matches a line of exactly six
whitespace-separated fields whose sixth field starts with a slash, and
captures that field. -/
def mapsLineStorePath (line : String) : Option String :=
  let toks := (line.split (fun c => c.isWhitespace)).filter (fun t => t ≠ "")
  if toks.length = 6 then
    match toks.get? 5 with
    | some t => if t.startsWith "/" then some t else none
    | none => none
  else none

/-- `scanMapsFile` (source lines 245-267): for each line of the maps file
matching `mapRegex`, record the captured path with the maps file as the root
when the path lies in the store. -/
def scanMapsFile (opts : GlobalOpts) (mapsFile : FsPath) (content : Option (List String))
    (res : Roots) : Roots :=
  match content with
  | none => res
  | some lines =>
    lines.foldl (fun r line =>
      match mapsLineStorePath line with
      | some t =>
        let matchedPath := parsePathString t
        if isInStore opts.storeDir matchedPath then rootsInsert matchedPath mapsFile r
        else r
      | none => r) res

/-- One `/proc` entry, with the observations the scanner makes of it:
the result of `read_symlink` on each probed path (absent means the readlink
failed and is logged and skipped, source lines 298-304), the outcome of
listing `fd/` (an errno on failure, lines 290-297), and the contents of
`environ` and `maps` (absent means the file does not exist). -/
structure ProcEntry where
  name : String
  isDirectory : Bool
  readlinkTab : List (FsPath × FsPath)
  fdListing : Except Nat (List String)
  environ : Option String
  maps : Option (List String)

/-- The `/proc` filesystem as the scanner observes it. -/
structure ProcFS where
  procExists : Bool
  entries : List ProcEntry
  modprobe : Option String
  fbsplash : Option String
  poweroffCmd : Option String

def ENOENT : Nat := 2

def EACCES : Nat := 13

/-- The `digitsRegex` check `^\d+$` (source lines 275, 279). -/
def isDigits (s : String) : Bool := !s.isEmpty && s.data.all (fun c => c.isDigit)

/-- `fs::read_symlink(path)` on a probe path of a `/proc` entry. -/
def procReadlink (e : ProcEntry) (p : FsPath) : Option FsPath :=
  (e.readlinkTab.find? (fun kv => kv.1 = p)).map (·.2)

/-- The per-process body of `getRuntimeRoots` (source lines 276-309): skip
entries that are not all-digit directories; build the sorted
`pathsToConsider` set from `exe`, `cwd` and the `fd/` listing — a benign
(`ENOENT`/`EACCES`) listing failure keeps just `exe` and `cwd`, any other
errno is rethrown (line 296); then record every probe whose readlink target
is in the store, and scan `environ` and `maps`. -/
def scanProcEntry (opts : GlobalOpts) (res : Roots) (e : ProcEntry) : Except Nat Roots :=
  if isDigits e.name && e.isDirectory then
    let base : FsPath := ["/", "proc", e.name]
    let paths0 := setInsert (base ++ ["cwd"]) (setInsert (base ++ ["exe"]) [])
    let pathsE : Except Nat (List FsPath) :=
      match e.fdListing with
      | .ok names => .ok (names.foldl (fun s n => setInsert (base ++ ["fd", n]) s) paths0)
      | .error code => if code = ENOENT ∨ code = EACCES then .ok paths0 else .error code
    match pathsE with
    | .error code => .error code
    | .ok pathsToConsider =>
      let r1 := pathsToConsider.foldl (fun r p =>
        match procReadlink e p with
        | some realPath =>
          if isInStore opts.storeDir realPath then rootsInsert realPath p r else r
        | none => r) res
      let r2 := scanFileContent opts (base ++ ["environ"]) e.environ r1
      .ok (scanMapsFile opts (base ++ ["maps"]) e.maps r2)
  else .ok res

/-- `getRuntimeRoots` (source lines 269-318).  The non-benign errno rethrow
of the fd-listing loop propagates out of the whole function as the `Except`
error; nothing catches it further up. -/
def getRuntimeRoots (opts : GlobalOpts) (proc : ProcFS) : Except Nat Roots :=
  if !proc.procExists then .ok []
  else
    match proc.entries.foldlM (fun r e => scanProcEntry opts r e) ([] : Roots) with
    | .error code => .error code
    | .ok r1 =>
      let r2 := scanFileContent opts ["/", "proc", "sys", "kernel", "modprobe"]
        proc.modprobe r1
      let r3 := scanFileContent opts ["/", "proc", "sys", "kernel", "fbsplash"]
        proc.fbsplash r2
      .ok (scanFileContent opts ["/", "proc", "sys", "kernel", "poweroff_cmd"]
        proc.poweroffCmd r3)

/-! ## The server -/

/-- `standardRoots` (source lines 323-326): the `std::set` holding
`stateDir/profiles` and `stateDir/gcroots`, in its sorted iteration order. -/
def standardRoots (opts : GlobalOpts) : List FsPath :=
  setInsert (opts.stateDir ++ ["gcroots"]) (setInsert (opts.stateDir ++ ["profiles"]) [])

/-- The serialization loop of `main` (source lines 362-375), chunk by chunk:
each `send` call contributes one chunk, in program order — for every map
entry and every external root the four chunks `store path`, tab, `root`,
newline; then the single separator newline; then for every dead link the two
chunks `dead link`, newline. -/
def serializeChunks (t : TraceResult) : List String :=
  t.storeRoots.foldl (fun acc kv =>
    kv.2.foldl (fun acc2 v => acc2 ++ [pathToString kv.1, "\t", pathToString v, "\n"]) acc) []
  ++ ["\n"]
  ++ t.deadLinks.foldl (fun acc d => acc ++ [pathToString d, "\n"]) []

/-- The bytes a complete response consists of. -/
def serializeResponse (t : TraceResult) : String := String.join (serializeChunks t)

/-- The result served for one request (source lines 359-361): the
filesystem trace of the standard roots, with the runtime scanner's map
range-inserted into its roots map. -/
def requestResult (opts : GlobalOpts) (fs : FSys) (runtimeRoots : Roots) : TraceResult :=
  let traceResult := followPathsToStore opts fs (standardRoots opts)
  { storeRoots := mergeRoots traceResult.storeRoots runtimeRoots
    deadLinks := traceResult.deadLinks }

/-- One full request (source lines 359-375): trace, scan `/proc`, merge,
serialize.  An exception escaping `getRuntimeRoots` is not caught anywhere
in `main`, so it is the `Except` error of the whole request. -/
def handleRequest (opts : GlobalOpts) (fs : FSys) (proc : ProcFS) : Except Nat String :=
  match getRuntimeRoots opts proc with
  | .error code => .error code
  | .ok rr => .ok (serializeResponse (requestResult opts fs rr))

/-- What becomes of the daemon after it accepts one connection. -/
inductive ServeOutcome where
  | served (response : String)
  | terminated (errno : Nat)
deriving DecidableEq

/-- One iteration of the accept loop of `main` (source lines 345-378): on a
successful scan the response is sent, the client socket is closed, and
control returns to `accept`; an exception thrown during the scan propagates
out of `main` — there is no handler — and the daemon process terminates. -/
def serveConnection (opts : GlobalOpts) (fs : FSys) (proc : ProcFS) : ServeOutcome :=
  match handleRequest opts fs proc with
  | .ok r => .served r
  | .error code => .terminated code

/-! ## Signal behavior -/

def SIGHUP : Nat := 1

def SIGINT : Nat := 2

def SIGTERM : Nat := 15

/-- The set of signals the program installs handlers for: the source
contains no `signal`/`sigaction` call at all, so it is empty. -/
def installedSignalHandlers : List Nat := []

/-- The daemon's externally visible state: whether the socket file bound at
startup still exists, and whether the process is running. -/
structure DaemonState where
  socketFileExists : Bool
  running : Bool
deriving DecidableEq

/-- The state after `main`'s startup (source lines 328-342): the socket path
was unlinked and then re-created by `bind`, so the socket file exists. -/
def daemonStartupState : DaemonState := { socketFileExists := true, running := true }

/-- Delivery of `SIGINT`/`SIGTERM`/`SIGHUP` to the daemon: with no handler
installed the default disposition terminates the process at once; no cleanup
code runs, so the filesystem — in particular the socket file — is left as it
is.  (The only `unlink` in the program is the startup one at line 335.) -/
def deliverSignal (sig : Nat) (st : DaemonState) : DaemonState :=
  if sig ∈ installedSignalHandlers then st
  else { socketFileExists := st.socketFileExists, running := false }

/-! ## Command-line parsing -/

/-- How `parseCmdLine` can terminate the process instead of returning
options: `usage()` followed by `exit(1)` when `getopt_long` reports an
unknown option, or the undefined behavior of constructing `fs::path` from a
null `optarg`. -/
inductive ParseOutcome where
  | usageExit
  | nullOptargCrash
deriving DecidableEq

/-- `parseCmdLine` (source lines 58-101), on the argument vector after the
program name.  The short-option string passed to `getopt_long` is `"vsl:"`:
`v` and `s` take no argument, `l` does, and `d` does not occur in it at all.
Consequently `-l` consumes the following argument; `-v` and `--verbose` set
verbosity; the long options `--socket_path`, `--store_dir` and `--state_dir`
(all declared `required_argument`) consume the following argument and reach
the `'l'`/`'s'`/`'d'` cases with `optarg` set; a bare `-s` reaches the `'s'`
case with `optarg` still null, so `fs::path(optarg)` at line 87 has undefined
behavior; `-d` or any other unknown option makes `getopt_long` return `'?'`,
which calls `usage()` and `exit(1)`.  A long option missing its required
argument likewise produces `'?'`. -/
def parseCmdLine (args : List String) : Except ParseOutcome GlobalOpts :=
  go args {}
where
  go : List String → GlobalOpts → Except ParseOutcome GlobalOpts
    | [], o => .ok o
    | a :: rest, o =>
      if a = "--verbose" then go rest { o with verbosity := .Verbose }
      else if a = "--socket_path" then
        match rest with
        | x :: rest2 => go rest2 { o with socketPath := parsePathString x }
        | [] => .error .usageExit
      else if a = "--store_dir" then
        match rest with
        | x :: rest2 => go rest2 { o with storeDir := parsePathString x }
        | [] => .error .usageExit
      else if a = "--state_dir" then
        match rest with
        | x :: rest2 => go rest2 { o with stateDir := parsePathString x }
        | [] => .error .usageExit
      else if a = "-v" then go rest { o with verbosity := .Verbose }
      else if a = "-l" then
        match rest with
        | x :: rest2 => go rest2 { o with socketPath := parsePathString x }
        | [] => .error .usageExit
      else if a = "-s" then .error .nullOptargCrash
      else .error .usageExit

/-! ## Concrete scenarios

Store root `/s`, state root `/v`, as in the spec's end-to-end scenarios. -/

/-- Options for the concrete scenarios: `-s /s -d /v`. -/
def optsScenario : GlobalOpts := { storeDir := ["/", "s"], stateDir := ["/", "v"] }

/-- A `/proc` that does not exist, making the runtime scanner return the
empty map (source lines 271-273). -/
def procNone : ProcFS :=
  { procExists := false, entries := [], modprobe := none, fbsplash := none,
    poweroffCmd := none }

/-- Scenario for C1: the over-budget chain
`/v/gcroots/a → /t/b → /t/c → /s/obj`. -/
def fsChain3 : FSys := ⟨[
  (["/", "v"], .dir),
  (["/", "v", "gcroots"], .dir),
  (["/", "v", "gcroots", "a"], .lnk ["/", "t", "b"]),
  (["/", "t"], .dir),
  (["/", "t", "b"], .lnk ["/", "t", "c"]),
  (["/", "t", "c"], .lnk ["/", "s", "obj"]),
  (["/", "s"], .dir),
  (["/", "s", "obj"], .reg)]⟩


/-- Scenario for C1, lengthened by one hop:
`/v/gcroots/a → /t/b → /t/c → /t/d → /s/obj`. -/
def fsChain4 : FSys := ⟨[
  (["/", "v"], .dir),
  (["/", "v", "gcroots"], .dir),
  (["/", "v", "gcroots", "a"], .lnk ["/", "t", "b"]),
  (["/", "t"], .dir),
  (["/", "t", "b"], .lnk ["/", "t", "c"]),
  (["/", "t", "c"], .lnk ["/", "t", "d"]),
  (["/", "t", "d"], .lnk ["/", "s", "obj"]),
  (["/", "s"], .dir),
  (["/", "s", "obj"], .reg)]⟩

/-- Scenario 2 of the spec (claim C2): `/v/gcroots/a → /home/u/profile`,
`/home/u/profile → /s/xyz-thing`. -/
def fsTwoHop : FSys := ⟨[
  (["/", "v"], .dir),
  (["/", "v", "gcroots"], .dir),
  (["/", "v", "gcroots", "a"], .lnk ["/", "home", "u", "profile"]),
  (["/", "home"], .dir),
  (["/", "home", "u"], .dir),
  (["/", "home", "u", "profile"], .lnk ["/", "s", "xyz-thing"]),
  (["/", "s"], .dir),
  (["/", "s", "xyz-thing"], .reg)]⟩

/-- Scenario 1 of the spec: `/v/gcroots/direct → /s/abc-hello`. -/
def fsOneHop : FSys := ⟨[
  (["/", "v"], .dir),
  (["/", "v", "gcroots"], .dir),
  (["/", "v", "gcroots", "direct"], .lnk ["/", "s", "abc-hello"]),
  (["/", "s"], .dir),
  (["/", "s", "abc-hello"], .reg)]⟩

/-- Scenario for C4: `/v/gcroots/a → /s/gone` where `/s/gone` does not
exist — a dangling symlink whose target lies lexically inside the store. -/
def fsDeadStore : FSys := ⟨[
  (["/", "v"], .dir),
  (["/", "v", "gcroots"], .dir),
  (["/", "v", "gcroots", "a"], .lnk ["/", "s", "gone"]),
  (["/", "s"], .dir)]⟩

/-- Scenario for C3: `/v/gcroots/a → /s/obj/sub`, a symlink to a path
below a store object. -/
def fsSubPath : FSys := ⟨[
  (["/", "v"], .dir),
  (["/", "v", "gcroots"], .dir),
  (["/", "v", "gcroots", "a"], .lnk ["/", "s", "obj", "sub"]),
  (["/", "s"], .dir),
  (["/", "s", "obj"], .dir),
  (["/", "s", "obj", "sub"], .reg)]⟩

/-- Scenario for C5: the filesystem side, `/v/gcroots/a → /s/obj`. -/
def fsSharedKey : FSys := ⟨[
  (["/", "v"], .dir),
  (["/", "v", "gcroots"], .dir),
  (["/", "v", "gcroots", "a"], .lnk ["/", "s", "obj"]),
  (["/", "s"], .dir),
  (["/", "s", "obj"], .reg)]⟩

/-- Scenario for C5: the `/proc` side, a single process whose `exe` links to
`/s/obj`. -/
def procExe42 : ProcFS :=
  { procExists := true
    entries := [{ name := "42", isDirectory := true
                  readlinkTab := [(["/", "proc", "42", "exe"], ["/", "s", "obj"])]
                  fdListing := .ok [], environ := none, maps := none }]
    modprobe := none, fbsplash := none, poweroffCmd := none }

/-- Scenario for C6: a `/proc` entry whose `fd/` listing fails with `EIO`
(errno 5), which is neither `ENOENT` nor `EACCES`. -/
def procEIO : ProcFS :=
  { procExists := true
    entries := [{ name := "43", isDirectory := true, readlinkTab := []
                  fdListing := .error 5, environ := none, maps := none }]
    modprobe := none, fbsplash := none, poweroffCmd := none }

/-- An empty filesystem. -/
def fsEmpty : FSys := ⟨[]⟩

/-- The store-object key shape asserted by the specification (P1, claim C3),
written from the spec's words for comparison with what the program emits:
the configured store root followed by exactly one component that matches the
store-object lexical rule (one or more of `[0-9a-z]`, then zero or more of
`[0-9a-zA-Z+\-._?=]`), with no further subpath components. -/
def storeObjectKeyRuleSpec (storeDir k : FsPath) : Bool :=
  storeDir.isPrefixOf k &&
    (match k.drop storeDir.length with
     | [name] =>
       (match name.data with
        | [] => false
        | c :: rest => isStoreNameStartChar c && rest.all isStoreNameChar)
     | _ => false)

/-! ## Claims settled on concrete scenarios -/

/-- C1 (counterexample): on the over-budget chain
`/v/gcroots/a → /t/b → /t/c → /s/obj` the runtime scanner finds nothing, yet
the served roots map is *not* empty for this chain: it contains the terminal
store object `/s/obj`, kept alive by the last link `/t/c`.  The third symlink
resolution targets the store and is recorded before any budget check, so the
claim's conclusion — that no roots-map entry for `/s/obj` is emitted — is
false. -/
theorem c1_counterexample :
    getRuntimeRoots optsScenario procNone = Except.ok [] ∧
    (requestResult optsScenario fsChain3 []).storeRoots =
      [(["/", "s", "obj"], [["/", "t", "c"]])] := by
  constructor
  · rfl
  · simp [requestResult, followPathsToStore, followPathToStoreOuter, standardRoots,
      maxRecursionLevel, followPathToStore, statusAt, fsChain3, descendantsOf, List.filter,
      List.find?, pathAppend, parentPath, isInStore, regularProbe, filename, rootsInsert,
      setInsert, pathLt, strLt, charListLt, List.attach, List.attachWith, List.pmap,
      List.foldl, mergeRoots, optsScenario]

/-- C1 (amended): the tracer decrements the hop budget (fixed at 2) on each
out-of-store symlink resolution and stops once it becomes negative, but an
in-store resolution is recorded regardless of the remaining budget.  Hence
for the three-hop chain `/v/gcroots/a → /t/b → /t/c → /s/obj` the roots map
contains `/s/obj` with `/t/c` as its root, and only from four hops on
(three out-of-store resolutions) is no entry emitted. -/
theorem c1_amended :
    (requestResult optsScenario fsChain3 []).storeRoots =
      [(["/", "s", "obj"], [["/", "t", "c"]])] ∧
    requestResult optsScenario fsChain4 [] = ⟨[], []⟩ := by
  constructor
  · simp [requestResult, followPathsToStore, followPathToStoreOuter, standardRoots,
      maxRecursionLevel, followPathToStore, statusAt, fsChain3, descendantsOf, List.filter,
      List.find?, pathAppend, parentPath, isInStore, regularProbe, filename, rootsInsert,
      setInsert, pathLt, strLt, charListLt, List.attach, List.attachWith, List.pmap,
      List.foldl, mergeRoots, optsScenario]
  · simp [requestResult, followPathsToStore, followPathToStoreOuter, standardRoots,
      maxRecursionLevel, followPathToStore, statusAt, fsChain4, descendantsOf, List.filter,
      List.find?, pathAppend, parentPath, isInStore, regularProbe, filename, rootsInsert,
      setInsert, pathLt, strLt, charListLt, List.attach, List.attachWith, List.pmap,
      List.foldl, mergeRoots, optsScenario]

/-- C2 (counterexample): for the two-hop chain `/v/gcroots/a →
/home/u/profile → /s/xyz-thing` the entry for `/s/xyz-thing` lists only the
intermediate link `/home/u/profile`: `res.storeRoots[target].insert(root)`
at source line 161 runs in the recursive call, whose `root` is the
intermediate link, so the chain's first link `/v/gcroots/a` is *not*
recorded, contradicting the claim. -/
theorem c2_counterexample :
    getRuntimeRoots optsScenario procNone = Except.ok [] ∧
    lookupRoots (requestResult optsScenario fsTwoHop []).storeRoots
      ["/", "s", "xyz-thing"] = some [["/", "home", "u", "profile"]] ∧
    ¬ (["/", "v", "gcroots", "a"] ∈ [(["/", "home", "u", "profile"] : FsPath)]) := by
  refine ⟨rfl, ?_, by decide⟩
  have h : (requestResult optsScenario fsTwoHop []).storeRoots =
      [(["/", "s", "xyz-thing"], [["/", "home", "u", "profile"]])] := by
    simp [requestResult, followPathsToStore, followPathToStoreOuter, standardRoots,
      maxRecursionLevel, followPathToStore, statusAt, fsTwoHop, descendantsOf, List.filter,
      List.find?, pathAppend, parentPath, isInStore, regularProbe, filename, rootsInsert,
      setInsert, pathLt, strLt, charListLt, List.attach, List.attachWith, List.pmap,
      List.foldl, mergeRoots, optsScenario]
  rw [h]
  rfl

/-- C2 (amended): a chain ending in the store is recorded with its *last*
link — the one whose target is in the store — as the external root.  For a
one-hop chain this coincides with the first link
(`/s/abc-hello ← /v/gcroots/direct`); for the two-hop chain the intermediate
link `/home/u/profile`, not `/v/gcroots/a`, is recorded. -/
theorem c2_amended :
    (requestResult optsScenario fsOneHop []).storeRoots =
      [(["/", "s", "abc-hello"], [["/", "v", "gcroots", "direct"]])] ∧
    (requestResult optsScenario fsTwoHop []).storeRoots =
      [(["/", "s", "xyz-thing"], [["/", "home", "u", "profile"]])] := by
  constructor
  · simp [requestResult, followPathsToStore, followPathToStoreOuter, standardRoots,
      maxRecursionLevel, followPathToStore, statusAt, fsOneHop, descendantsOf, List.filter,
      List.find?, pathAppend, parentPath, isInStore, regularProbe, filename, rootsInsert,
      setInsert, pathLt, strLt, charListLt, List.attach, List.attachWith, List.pmap,
      List.foldl, mergeRoots, optsScenario]
  · simp [requestResult, followPathsToStore, followPathToStoreOuter, standardRoots,
      maxRecursionLevel, followPathToStore, statusAt, fsTwoHop, descendantsOf, List.filter,
      List.find?, pathAppend, parentPath, isInStore, regularProbe, filename, rootsInsert,
      setInsert, pathLt, strLt, charListLt, List.attach, List.attachWith, List.pmap,
      List.foldl, mergeRoots, optsScenario]

/-- C4: the claim (spec invariant P2) is *right* and the code violates it.
For the dangling symlink `/v/gcroots/a → /s/gone` (target absent but
lexically inside the store), `followPathToStore` inserts `/v/gcroots/a` into
the dead-link set (line 153) and then — because the dead-target branch does
not stop — also records it as an external root of `/s/gone` (line 161), so
the same path is served both as a root and as a dead link in one response. -/
theorem c4_root_and_dead_overlap :
    getRuntimeRoots optsScenario procNone = Except.ok [] ∧
    requestResult optsScenario fsDeadStore [] =
      ⟨[(["/", "s", "gone"], [["/", "v", "gcroots", "a"]])],
        [["/", "v", "gcroots", "a"]]⟩ := by
  refine ⟨rfl, ?_⟩
  simp [requestResult, followPathsToStore, followPathToStoreOuter, standardRoots,
    maxRecursionLevel, followPathToStore, statusAt, fsDeadStore, descendantsOf, List.filter,
    List.find?, pathAppend, parentPath, isInStore, regularProbe, filename, rootsInsert,
    setInsert, pathLt, strLt, charListLt, List.attach, List.attachWith, List.pmap,
    List.foldl, mergeRoots, optsScenario]

/-- C6 (counterexample): an `EIO` (errno 5) from listing `/proc/43/fd` is
rethrown at source line 296; no handler exists between there and `main`'s
accept loop, so serving this request terminates the daemon process instead
of returning to `accept`, contradicting the claim that a scan failure only
ends the request. -/
theorem c6_counterexample :
    serveConnection optsScenario fsEmpty procEIO = ServeOutcome.terminated 5 := by
  rfl

/-- C6 (amended): the accept loop returns to `accept` only when the scan
completes; any error escaping `getRuntimeRoots` (an I/O error under `/proc`
other than `EACCES`/`ENOENT`) propagates out of `main` uncaught and
terminates the daemon process with that errno. -/
theorem c6_amended (opts : GlobalOpts) (fs : FSys) (proc : ProcFS) :
    (∀ code, getRuntimeRoots opts proc = .error code →
      serveConnection opts fs proc = .terminated code) ∧
    (∀ rr, getRuntimeRoots opts proc = .ok rr →
      serveConnection opts fs proc = .served (serializeResponse (requestResult opts fs rr))) := by
  constructor
  · intro code h
    simp [serveConnection, handleRequest, h]
  · intro rr h
    simp [serveConnection, handleRequest, h]

/-- Witness for `c6_amended` at a concrete input: the successful branch on
an absent `/proc` serves a response and the loop continues. -/
theorem c6_amended_witness :
    serveConnection optsScenario fsEmpty procNone =
      .served (serializeResponse (requestResult optsScenario fsEmpty [])) :=
  (c6_amended optsScenario fsEmpty procNone).2 [] rfl

/-- C7 (counterexample): the program installs no signal handler, so SIGTERM
terminates the daemon through the default disposition without any cleanup;
the socket file bound at startup still exists afterwards, contradicting the
claim that the socket path is unlinked on SIGTERM. -/
theorem c7_counterexample :
    ¬ ((deliverSignal SIGTERM daemonStartupState).socketFileExists = false) := by
  decide

/-- C7 (amended): on SIGINT, SIGTERM or SIGHUP the daemon performs no
orderly shutdown: the default disposition stops the process and the socket
file is left exactly as it was (it is only unlinked by the *next* startup,
source line 335). -/
theorem c7_amended (sig : Nat) (st : DaemonState) :
    (deliverSignal sig st).socketFileExists = st.socketFileExists ∧
    ((sig = SIGINT ∨ sig = SIGTERM ∨ sig = SIGHUP) →
      (deliverSignal sig st).running = false) := by
  constructor
  · simp [deliverSignal, installedSignalHandlers]
  · intro _
    simp [deliverSignal, installedSignalHandlers]

/-- Witness for `c7_amended`: SIGTERM delivered to the daemon right after
startup leaves the socket file in place and stops the process. -/
theorem c7_amended_witness :
    (deliverSignal SIGTERM daemonStartupState).socketFileExists =
      daemonStartupState.socketFileExists ∧
    (deliverSignal SIGTERM daemonStartupState).running = false :=
  ⟨(c7_amended SIGTERM daemonStartupState).1,
    (c7_amended SIGTERM daemonStartupState).2 (Or.inr (Or.inl rfl))⟩

/-- C9: the claim matches the program's own usage string
(`[-s storeDir] [-d stateDir]`), but the optstring passed to `getopt_long`
is `"vsl:"`: `d` is absent, so `-d path` prints usage and exits 1; `s` lacks
the `:`, so `-s path` reaches `res.storeDir = fs::path(optarg)` with a null
`optarg` (undefined behavior).  The long options and the defaults do work as
claimed. -/
theorem c9_short_options_broken :
    parseCmdLine ["-d", "/custom"] = .error .usageExit ∧
    parseCmdLine ["-s", "/custom"] = .error .nullOptargCrash ∧
    parseCmdLine ["--state_dir", "/custom"] =
      .ok { stateDir := ["/", "custom"] } ∧
    parseCmdLine ["--store_dir", "/custom"] =
      .ok { storeDir := ["/", "custom"] } ∧
    parseCmdLine [] = .ok {} ∧
    ({} : GlobalOpts).storeDir = ["/", "nix", "store"] ∧
    ({} : GlobalOpts).stateDir = ["/", "nix", "var", "nix"] :=
  ⟨rfl, rfl, rfl, rfl, rfl, rfl, rfl⟩

/-- C5 (counterexample): the tracer finds `/s/obj ← /v/gcroots/a` and the
runtime scanner finds `/s/obj ← /proc/42/exe`, but the served set for
`/s/obj` is only the tracer's: `std::map::insert` (source line 361) never
overwrites an existing key, so the runtime scanner's root edge for a shared
key is dropped and the emitted set is not the union the claim asserts. -/
theorem c5_counterexample :
    getRuntimeRoots optsScenario procExe42 =
      Except.ok [(["/", "s", "obj"], [["/", "proc", "42", "exe"]])] ∧
    (requestResult optsScenario fsSharedKey
        [(["/", "s", "obj"], [["/", "proc", "42", "exe"]])]).storeRoots =
      [(["/", "s", "obj"], [["/", "v", "gcroots", "a"]])] ∧
    ¬ (["/", "proc", "42", "exe"] ∈ [(["/", "v", "gcroots", "a"] : FsPath)]) := by
  refine ⟨rfl, ?_, by decide⟩
  simp [requestResult, followPathsToStore, followPathToStoreOuter, standardRoots,
    maxRecursionLevel, followPathToStore, statusAt, fsSharedKey, descendantsOf, List.filter,
    List.find?, pathAppend, parentPath, isInStore, regularProbe, filename, rootsInsert,
    setInsert, pathLt, strLt, charListLt, List.attach, List.attachWith, List.pmap,
    List.foldl, mergeRoots, mapInsertKeep, optsScenario]

/-- C3 (counterexample): tracing the symlink `/v/gcroots/a → /s/obj/sub`
emits the key `/s/obj/sub`, which starts with the store root but carries a
further subpath component below the store object, so it violates the
claimed key shape (store root plus exactly one lexical-rule component). -/
theorem c3_counterexample :
    getRuntimeRoots optsScenario procNone = Except.ok [] ∧
    (["/", "s", "obj", "sub"] ∈
      (requestResult optsScenario fsSubPath []).storeRoots.map (·.1)) ∧
    storeObjectKeyRuleSpec ["/", "s"] ["/", "s", "obj", "sub"] = false := by
  refine ⟨rfl, ?_, by decide⟩
  have h : (requestResult optsScenario fsSubPath []).storeRoots =
      [(["/", "s", "obj", "sub"], [["/", "v", "gcroots", "a"]])] := by
    simp [requestResult, followPathsToStore, followPathToStoreOuter, standardRoots,
      maxRecursionLevel, followPathToStore, statusAt, fsSubPath, descendantsOf, List.filter,
      List.find?, pathAppend, parentPath, isInStore, regularProbe, filename, rootsInsert,
      setInsert, pathLt, strLt, charListLt, List.attach, List.attachWith, List.pmap,
      List.foldl, mergeRoots, optsScenario]
  rw [h]
  decide

/-! ## Invariant lemmas for the ordered containers -/

theorem setInsert_mem (x y : FsPath) (l : List FsPath) :
    y ∈ setInsert x l ↔ y = x ∨ y ∈ l := by
  induction l with
  | nil => simp [setInsert]
  | cons z zs ih =>
    simp only [setInsert]
    by_cases h1 : pathLt x z = true
    · rw [if_pos h1]
      simp [List.mem_cons]
    · rw [if_neg h1]
      by_cases h2 : x = z
      · rw [if_pos h2]
        subst h2
        simp [List.mem_cons]
      · rw [if_neg h2]
        simp only [List.mem_cons, ih]
        tauto

theorem setInsert_pairwise (x : FsPath) (l : List FsPath)
    (h : List.Pairwise PLt l) : List.Pairwise PLt (setInsert x l) := by
  induction l with
  | nil => simp [setInsert, List.pairwise_singleton]
  | cons z zs ih =>
    rcases List.pairwise_cons.1 h with ⟨hz, hzs⟩
    simp only [setInsert]
    by_cases h1 : pathLt x z = true
    · rw [if_pos h1]
      refine List.pairwise_cons.2 ⟨?_, h⟩
      intro a ha
      rcases List.mem_cons.1 ha with rfl | ha2
      · exact h1
      · exact pathLt_trans _ _ _ h1 (hz a ha2)
    · rw [if_neg h1]
      by_cases h2 : x = z
      · rw [if_pos h2]
        exact h
      · rw [if_neg h2]
        refine List.pairwise_cons.2 ⟨?_, ih hzs⟩
        intro a ha
        rcases (setInsert_mem x a zs).1 ha with heq | ha2
        · subst heq
          exact pathLt_of_not_lt_of_ne a z (by simpa using h1) h2
        · exact hz a ha2

theorem rootsInsert_mem (k v : FsPath) (m : Roots) (kv : FsPath × List FsPath)
    (h : kv ∈ rootsInsert k v m) :
    kv.1 = k ∨ kv ∈ m := by
  induction m with
  | nil =>
    simp only [rootsInsert, List.mem_singleton] at h
    left; rw [h]
  | cons e rest ih =>
    obtain ⟨k1, vs1⟩ := e
    simp only [rootsInsert] at h
    by_cases h1 : pathLt k k1 = true
    · rw [if_pos h1] at h
      rcases List.mem_cons.1 h with rfl | h2
      · left; rfl
      · right; exact h2
    · rw [if_neg h1] at h
      by_cases h2 : k = k1
      · rw [if_pos h2] at h
        rcases List.mem_cons.1 h with rfl | h3
        · left; exact h2.symm
        · right; exact List.mem_cons_of_mem _ h3
      · rw [if_neg h2] at h
        rcases List.mem_cons.1 h with rfl | h3
        · right; exact List.mem_cons_self _ _
        · rcases ih h3 with hk | hm
          · left; exact hk
          · right; exact List.mem_cons_of_mem _ hm

theorem rootsInsert_values (k v : FsPath) (m : Roots) (kv : FsPath × List FsPath)
    (h : kv ∈ rootsInsert k v m) :
    kv ∈ m ∨ kv.2 = [v] ∨ ∃ vs, kv.2 = setInsert v vs ∧ (kv.1, vs) ∈ m := by
  induction m with
  | nil =>
    simp only [rootsInsert, List.mem_singleton] at h
    right; left; rw [h]
  | cons e rest ih =>
    obtain ⟨k1, vs1⟩ := e
    simp only [rootsInsert] at h
    by_cases h1 : pathLt k k1 = true
    · rw [if_pos h1] at h
      rcases List.mem_cons.1 h with rfl | h2
      · right; left; rfl
      · left; exact h2
    · rw [if_neg h1] at h
      by_cases h2 : k = k1
      · rw [if_pos h2] at h
        rcases List.mem_cons.1 h with rfl | h3
        · right; right
          exact ⟨vs1, rfl, List.mem_cons_self _ _⟩
        · left; exact List.mem_cons_of_mem _ h3
      · rw [if_neg h2] at h
        rcases List.mem_cons.1 h with rfl | h3
        · left; exact List.mem_cons_self _ _
        · rcases ih h3 with hm | hv | ⟨vs, hvs, hmem⟩
          · left; exact List.mem_cons_of_mem _ hm
          · right; left; exact hv
          · right; right; exact ⟨vs, hvs, List.mem_cons_of_mem _ hmem⟩

theorem rootsInsert_keys_pairwise (k v : FsPath) (m : Roots)
    (h : List.Pairwise (fun a b => PLt a.1 b.1) m) :
    List.Pairwise (fun a b => PLt a.1 b.1) (rootsInsert k v m) := by
  induction m with
  | nil => simp [rootsInsert, List.pairwise_singleton]
  | cons e rest ih =>
    obtain ⟨k1, vs1⟩ := e
    rcases List.pairwise_cons.1 h with ⟨hz, hzs⟩
    simp only [rootsInsert]
    by_cases h1 : pathLt k k1 = true
    · rw [if_pos h1]
      refine List.pairwise_cons.2 ⟨?_, h⟩
      intro a ha
      rcases List.mem_cons.1 ha with rfl | ha2
      · exact h1
      · exact pathLt_trans _ _ _ h1 (hz a ha2)
    · rw [if_neg h1]
      by_cases h2 : k = k1
      · rw [if_pos h2]
        refine List.pairwise_cons.2 ⟨?_, hzs⟩
        intro a ha
        exact hz a ha
      · rw [if_neg h2]
        refine List.pairwise_cons.2 ⟨?_, ih hzs⟩
        intro a ha
        rcases rootsInsert_mem k v rest a ha with hk | hm
        · rw [hk]
          exact pathLt_of_not_lt_of_ne k k1 (by simpa using h1) h2
        · exact hz a hm

theorem rootsInsert_values_pairwise (k v : FsPath) (m : Roots)
    (h : ∀ kv ∈ m, List.Pairwise PLt kv.2) :
    ∀ kv ∈ rootsInsert k v m, List.Pairwise PLt kv.2 := by
  intro kv hkv
  rcases rootsInsert_values k v m kv hkv with hm | hv | ⟨vs, hvs, hmem⟩
  · exact h kv hm
  · rw [hv]
    exact List.pairwise_singleton _ _
  · rw [hvs]
    exact setInsert_pairwise v vs (h (kv.1, vs) hmem)

theorem mapInsertKeep_mem (k : FsPath) (vs : List FsPath) (m : Roots)
    (kv : FsPath × List FsPath) (h : kv ∈ mapInsertKeep k vs m) :
    kv = (k, vs) ∨ kv ∈ m := by
  induction m with
  | nil =>
    simp only [mapInsertKeep, List.mem_singleton] at h
    left; exact h
  | cons e rest ih =>
    obtain ⟨k1, vs1⟩ := e
    simp only [mapInsertKeep] at h
    by_cases h1 : pathLt k k1 = true
    · rw [if_pos h1] at h
      rcases List.mem_cons.1 h with rfl | h2
      · left; rfl
      · right; exact h2
    · rw [if_neg h1] at h
      by_cases h2 : k = k1
      · rw [if_pos h2] at h
        right; exact h
      · rw [if_neg h2] at h
        rcases List.mem_cons.1 h with rfl | h3
        · right; exact List.mem_cons_self _ _
        · rcases ih h3 with hk | hm
          · left; exact hk
          · right; exact List.mem_cons_of_mem _ hm

theorem mapInsertKeep_keys_pairwise (k : FsPath) (vs : List FsPath) (m : Roots)
    (h : List.Pairwise (fun a b => PLt a.1 b.1) m) :
    List.Pairwise (fun a b => PLt a.1 b.1) (mapInsertKeep k vs m) := by
  induction m with
  | nil => simp [mapInsertKeep, List.pairwise_singleton]
  | cons e rest ih =>
    obtain ⟨k1, vs1⟩ := e
    rcases List.pairwise_cons.1 h with ⟨hz, hzs⟩
    simp only [mapInsertKeep]
    by_cases h1 : pathLt k k1 = true
    · rw [if_pos h1]
      refine List.pairwise_cons.2 ⟨?_, h⟩
      intro a ha
      rcases List.mem_cons.1 ha with rfl | ha2
      · exact h1
      · exact pathLt_trans _ _ _ h1 (hz a ha2)
    · rw [if_neg h1]
      by_cases h2 : k = k1
      · rw [if_pos h2]
        exact h
      · rw [if_neg h2]
        refine List.pairwise_cons.2 ⟨?_, ih hzs⟩
        intro a ha
        rcases mapInsertKeep_mem k vs rest a ha with hk | hm
        · rw [hk]
          exact pathLt_of_not_lt_of_ne k k1 (by simpa using h1) h2
        · exact hz a hm

/-- A well-formed roots map: the iteration order of the
`std::map<fs::path, std::set<fs::path>>` — keys strictly ascending, each
value set strictly ascending. -/
def SortedRoots (m : Roots) : Prop :=
  List.Pairwise (fun a b => PLt a.1 b.1) m ∧ ∀ kv ∈ m, List.Pairwise PLt kv.2

theorem SortedRoots_rootsInsert (k v : FsPath) (m : Roots) (h : SortedRoots m) :
    SortedRoots (rootsInsert k v m) :=
  ⟨rootsInsert_keys_pairwise k v m h.1, rootsInsert_values_pairwise k v m h.2⟩

theorem SortedRoots_mapInsertKeep (k : FsPath) (vs : List FsPath) (m : Roots)
    (h : SortedRoots m) (hvs : List.Pairwise PLt vs) :
    SortedRoots (mapInsertKeep k vs m) := by
  refine ⟨mapInsertKeep_keys_pairwise k vs m h.1, ?_⟩
  intro kv hkv
  rcases mapInsertKeep_mem k vs m kv hkv with rfl | hm
  · exact hvs
  · exact h.2 kv hm

theorem SortedRoots_mergeRoots (base extra : Roots) (hb : SortedRoots base)
    (he : ∀ kv ∈ extra, List.Pairwise PLt kv.2) :
    SortedRoots (mergeRoots base extra) := by
  induction extra generalizing base with
  | nil => exact hb
  | cons e rest ih =>
    have h1 : SortedRoots (mapInsertKeep e.1 e.2 base) :=
      SortedRoots_mapInsertKeep e.1 e.2 base hb (he e (List.mem_cons_self _ _))
    have h2 : ∀ kv ∈ rest, List.Pairwise PLt kv.2 :=
      fun kv hkv => he kv (List.mem_cons_of_mem _ hkv)
    exact ih _ h1 h2

theorem mergeRoots_mem (base extra : Roots) (kv : FsPath × List FsPath)
    (h : kv ∈ mergeRoots base extra) : kv ∈ base ∨ kv ∈ extra := by
  induction extra generalizing base with
  | nil => left; exact h
  | cons e rest ih =>
    rcases ih (mapInsertKeep e.1 e.2 base) h with h1 | h2
    · rcases mapInsertKeep_mem e.1 e.2 base kv h1 with hk | hm
      · right
        rw [hk]
        exact List.mem_cons_self _ _
      · left; exact hm
    · right; exact List.mem_cons_of_mem _ h2

/-! ## Invariants of the tracer -/

theorem isInStore_append (sd l : FsPath) : isInStore sd (sd ++ l) = true := by
  simp [isInStore, List.isPrefixOf_iff_prefix, List.prefix_append]

theorem foldl_preserves {α β : Type} (P : β → Prop) (f : β → α → β) (l : List α)
    (hf : ∀ r a, a ∈ l → P r → P (f r a)) :
    ∀ res, P res → P (l.foldl f res) := by
  induction l with
  | nil => intro res h; exact h
  | cons a t ih =>
    intro res h
    exact ih (fun r b hb hr => hf r b (List.mem_cons_of_mem _ hb) hr) _
      (hf res a (List.mem_cons_self _ _) h)

theorem regularProbe_preserves (opts : GlobalOpts) (fs : FSys) (P : TraceResult → Prop)
    (hroot : ∀ res k v, P res → isInStore opts.storeDir k = true →
      P { res with storeRoots := rootsInsert k v res.storeRoots })
    (root : FsPath) (res : TraceResult) (h : P res) : P (regularProbe opts fs root res) := by
  unfold regularProbe
  by_cases hex : (statusAt fs (opts.storeDir ++ [filename root])).isSome = true
  · rw [if_pos hex]
    exact hroot res _ root h (isInStore_append _ _)
  · rw [if_neg hex]
    exact h

theorem followPathToStore_preserves (opts : GlobalOpts) (fs : FSys)
    (P : TraceResult → Prop)
    (hroot : ∀ res k v, P res → isInStore opts.storeDir k = true →
      P { res with storeRoots := rootsInsert k v res.storeRoots })
    (hdead : ∀ res d, P res → P { res with deadLinks := setInsert d res.deadLinks }) :
    ∀ fuel root node res, P res → P (followPathToStore opts fs fuel root node res) := by
  refine followPathToStore.induct opts fs
    (fun fuel root node res => P res → P (followPathToStore opts fs fuel root node res))
    ?_ ?_ ?_ ?_ ?_ ?_ ?_
  · intro root status res h
    simpa only [followPathToStore] using h
  · intro root res f ih h
    simp only [followPathToStore]
    exact foldl_preserves P _ _ (fun r e _ hr => ih r e hr) res h
  · intro root res f t target hstore h
    simp only [followPathToStore]
    rw [if_pos hstore]
    by_cases hnone : (statusAt fs target).isNone = true
    · simp only [hnone, if_true]
      exact hroot _ _ _ (hdead res root h) hstore
    · simp only [hnone, if_false]
      exact hroot _ _ _ h hstore
  · intro root res f t target tstatus res1 hstore ih h
    simp only [followPathToStore]
    rw [if_neg hstore]
    have hres1 : P res1 := by
      by_cases hnone : tstatus.isNone = true
      · simpa only [res1, hnone, if_true] using hdead res root h
      · simpa only [res1, hnone, if_false] using h
    exact regularProbe_preserves opts fs P hroot root _ (ih hres1)
  · intro root res f h
    simp only [followPathToStore]
    exact regularProbe_preserves opts fs P hroot root res h
  · intro root res f h
    simpa only [followPathToStore] using h
  · intro root res f h
    simpa only [followPathToStore] using h

theorem followPathsToStore_preserves (opts : GlobalOpts) (fs : FSys) (roots : List FsPath)
    (P : TraceResult → Prop)
    (hroot : ∀ res k v, P res → isInStore opts.storeDir k = true →
      P { res with storeRoots := rootsInsert k v res.storeRoots })
    (hdead : ∀ res d, P res → P { res with deadLinks := setInsert d res.deadLinks })
    (hinit : P ⟨[], []⟩) : P (followPathsToStore opts fs roots) := by
  unfold followPathsToStore
  refine foldl_preserves P _ _ ?_ _ hinit
  intro r root _ hr
  unfold followPathToStoreOuter
  exact followPathToStore_preserves opts fs P hroot hdead _ _ _ _ hr

/-! ## Invariants of the runtime-root scanner -/

theorem scanStorePaths_mem (storeDir : FsPath) (sdSlash : List Char) :
    ∀ cs k, k ∈ scanStorePaths storeDir sdSlash cs → ∃ n, k = storeDir ++ [n] := by
  intro cs
  induction cs using scanStorePaths.induct storeDir sdSlash with
  | case1 =>
    intro k hk
    rw [scanStorePaths.eq_1] at hk
    exact absurd hk (List.not_mem_nil k)
  | case2 c rest name r hmatch ih =>
    intro k hk
    rw [scanStorePaths.eq_2] at hk
    split at hk
    case _ name2 r2 heq =>
      rw [hmatch] at heq
      injection heq with heq2
      obtain ⟨rfl, rfl⟩ : name2 = name ∧ r2 = r := by
        constructor
        · exact (congrArg Prod.fst heq2).symm
        · exact (congrArg Prod.snd heq2).symm
      rcases List.mem_cons.1 hk with rfl | hk2
      · exact ⟨_, rfl⟩
      · exact ih k hk2
    case _ heq =>
      rw [hmatch] at heq
      exact absurd heq (by simp)
  | case3 c rest hmatch ih =>
    intro k hk
    rw [scanStorePaths.eq_2] at hk
    split at hk
    case _ name2 r2 heq =>
      rw [hmatch] at heq
      exact absurd heq (by simp)
    case _ heq =>
      exact ih k hk

theorem scanFileContent_preserves (opts : GlobalOpts) (Q : Roots → Prop)
    (hins : ∀ r k v, Q r → isInStore opts.storeDir k = true → Q (rootsInsert k v r))
    (file : FsPath) (content : Option String) (r : Roots) (h : Q r) :
    Q (scanFileContent opts file content r) := by
  unfold scanFileContent
  match content with
  | none => exact h
  | some s =>
    refine foldl_preserves Q _ _ ?_ r h
    intro r2 k hk hr2
    rcases scanStorePaths_mem opts.storeDir _ _ k hk with ⟨n, rfl⟩
    exact hins r2 _ file hr2 (isInStore_append _ _)

theorem scanMapsFile_preserves (opts : GlobalOpts) (Q : Roots → Prop)
    (hins : ∀ r k v, Q r → isInStore opts.storeDir k = true → Q (rootsInsert k v r))
    (file : FsPath) (content : Option (List String)) (r : Roots) (h : Q r) :
    Q (scanMapsFile opts file content r) := by
  unfold scanMapsFile
  match content with
  | none => exact h
  | some lines =>
    refine foldl_preserves Q _ _ ?_ r h
    intro r2 line _ hr2
    match mapsLineStorePath line with
    | none => exact hr2
    | some t =>
      by_cases hst : isInStore opts.storeDir (parsePathString t) = true
      · simp only [hst, if_true]
        exact hins r2 _ file hr2 hst
      · simp only [hst, if_false]
        exact hr2

theorem scanProcEntry_preserves (opts : GlobalOpts) (Q : Roots → Prop)
    (hins : ∀ r k v, Q r → isInStore opts.storeDir k = true → Q (rootsInsert k v r))
    (e : ProcEntry) (r r2 : Roots) (h : Q r) (hok : scanProcEntry opts r e = .ok r2) :
    Q r2 := by
  have hfold : ∀ paths : List FsPath,
      Q (paths.foldl (fun r3 p =>
        match procReadlink e p with
        | some realPath =>
          if isInStore opts.storeDir realPath then rootsInsert realPath p r3 else r3
        | none => r3) r) := by
    intro paths
    refine foldl_preserves Q _ _ ?_ r h
    intro r3 p _ hr3
    match procReadlink e p with
    | none => exact hr3
    | some realPath =>
      by_cases hst : isInStore opts.storeDir realPath = true
      · simp only [hst, if_true]
        exact hins r3 _ p hr3 hst
      · simp only [hst, if_false]
        exact hr3
  unfold scanProcEntry at hok
  by_cases hd : (isDigits e.name && e.isDirectory) = true
  · rw [if_pos hd] at hok
    rcases hfl : e.fdListing with code | names
    · simp only [hfl] at hok
      by_cases hbenign : (code = ENOENT ∨ code = EACCES)
      · rw [if_pos hbenign] at hok
        simp only [Except.ok.injEq] at hok
        subst hok
        refine scanMapsFile_preserves opts Q hins _ _ _ ?_
        exact scanFileContent_preserves opts Q hins _ _ _ (hfold _)
      · rw [if_neg hbenign] at hok
        exact absurd hok (by simp)
    · simp only [hfl] at hok
      simp only [Except.ok.injEq] at hok
      subst hok
      refine scanMapsFile_preserves opts Q hins _ _ _ ?_
      exact scanFileContent_preserves opts Q hins _ _ _ (hfold _)
  · rw [if_neg hd] at hok
    simp only [Except.ok.injEq] at hok
    subst hok
    exact h

theorem foldlM_except_preserves {α : Type} (Q : Roots → Prop)
    (f : Roots → α → Except Nat Roots) :
    ∀ (l : List α) (init r2 : Roots),
      (∀ r a r3, a ∈ l → Q r → f r a = .ok r3 → Q r3) →
      Q init → l.foldlM f init = .ok r2 → Q r2 := by
  intro l
  induction l with
  | nil =>
    intro init r2 _ hinit hfold
    simp only [List.foldlM] at hfold
    cases hfold
    exact hinit
  | cons a t ih =>
    intro init r2 hf hinit hfold
    rw [List.foldlM_cons] at hfold
    rcases hstep : f init a with code | r3
    · rw [hstep] at hfold
      exact absurd hfold (by simp [Bind.bind, Except.bind])
    · rw [hstep] at hfold
      have h3 : Q r3 := hf init a r3 (List.mem_cons_self _ _) hinit hstep
      have hrest : t.foldlM f r3 = .ok r2 := by
        simpa [Bind.bind, Except.bind] using hfold
      exact ih r3 r2 (fun r b r4 hb => hf r b r4 (List.mem_cons_of_mem _ hb)) h3 hrest

theorem getRuntimeRoots_preserves (opts : GlobalOpts) (Q : Roots → Prop)
    (hins : ∀ r k v, Q r → isInStore opts.storeDir k = true → Q (rootsInsert k v r))
    (hnil : Q []) (proc : ProcFS) (rr : Roots)
    (h : getRuntimeRoots opts proc = .ok rr) : Q rr := by
  unfold getRuntimeRoots at h
  by_cases hex : (!proc.procExists) = true
  · rw [if_pos hex] at h
    cases h
    exact hnil
  · rw [if_neg hex] at h
    rcases hfold : proc.entries.foldlM (fun r e => scanProcEntry opts r e) ([] : Roots) with
      code | r1
    · rw [hfold] at h
      exact absurd h (by simp)
    · rw [hfold] at h
      simp only [Except.ok.injEq] at h
      subst h
      have h1 : Q r1 :=
        foldlM_except_preserves Q _ proc.entries [] r1
          (fun r e r3 _ hr hok => scanProcEntry_preserves opts Q hins e r r3 hr hok)
          hnil hfold
      refine scanFileContent_preserves opts Q hins _ _ _ ?_
      refine scanFileContent_preserves opts Q hins _ _ _ ?_
      exact scanFileContent_preserves opts Q hins _ _ _ h1

/-! ## The invariants instantiated -/

theorem followPathsToStore_keys_inStore (opts : GlobalOpts) (fs : FSys) (roots : List FsPath) :
    ∀ kv ∈ (followPathsToStore opts fs roots).storeRoots,
      isInStore opts.storeDir kv.1 = true := by
  refine followPathsToStore_preserves opts fs roots
    (fun res => ∀ kv ∈ res.storeRoots, isInStore opts.storeDir kv.1 = true) ?_ ?_ ?_
  · intro res k v hres hk kv hkv
    rcases rootsInsert_mem k v res.storeRoots kv hkv with h1 | h2
    · rw [h1]; exact hk
    · exact hres kv h2
  · intro res d hres kv hkv
    exact hres kv hkv
  · intro kv hkv
    exact absurd hkv (List.not_mem_nil kv)

theorem followPathsToStore_sorted (opts : GlobalOpts) (fs : FSys) (roots : List FsPath) :
    SortedRoots (followPathsToStore opts fs roots).storeRoots ∧
      List.Pairwise PLt (followPathsToStore opts fs roots).deadLinks := by
  refine followPathsToStore_preserves opts fs roots
    (fun res => SortedRoots res.storeRoots ∧ List.Pairwise PLt res.deadLinks) ?_ ?_ ?_
  · intro res k v hres _
    exact ⟨SortedRoots_rootsInsert k v res.storeRoots hres.1, hres.2⟩
  · intro res d hres
    exact ⟨hres.1, setInsert_pairwise d res.deadLinks hres.2⟩
  · exact ⟨⟨List.Pairwise.nil, by simp⟩, List.Pairwise.nil⟩

theorem getRuntimeRoots_keys_inStore (opts : GlobalOpts) (proc : ProcFS) (rr : Roots)
    (h : getRuntimeRoots opts proc = .ok rr) :
    ∀ kv ∈ rr, isInStore opts.storeDir kv.1 = true := by
  refine getRuntimeRoots_preserves opts
    (fun r => ∀ kv ∈ r, isInStore opts.storeDir kv.1 = true) ?_ ?_ proc rr h
  · intro r k v hr hk kv hkv
    rcases rootsInsert_mem k v r kv hkv with h1 | h2
    · rw [h1]; exact hk
    · exact hr kv h2
  · intro kv hkv
    exact absurd hkv (List.not_mem_nil kv)

theorem getRuntimeRoots_sorted (opts : GlobalOpts) (proc : ProcFS) (rr : Roots)
    (h : getRuntimeRoots opts proc = .ok rr) : SortedRoots rr := by
  refine getRuntimeRoots_preserves opts SortedRoots ?_ ?_ proc rr h
  · intro r k v hr _
    exact SortedRoots_rootsInsert k v r hr
  · exact ⟨List.Pairwise.nil, by simp⟩

theorem requestResult_keys_inStore (opts : GlobalOpts) (fs : FSys) (proc : ProcFS)
    (rr : Roots) (h : getRuntimeRoots opts proc = .ok rr) :
    ∀ kv ∈ (requestResult opts fs rr).storeRoots, isInStore opts.storeDir kv.1 = true := by
  intro kv hkv
  unfold requestResult at hkv
  rcases mergeRoots_mem _ rr kv hkv with h1 | h2
  · exact followPathsToStore_keys_inStore opts fs (standardRoots opts) kv h1
  · exact getRuntimeRoots_keys_inStore opts proc rr h kv h2

theorem requestResult_sorted (opts : GlobalOpts) (fs : FSys) (proc : ProcFS)
    (rr : Roots) (h : getRuntimeRoots opts proc = .ok rr) :
    SortedRoots (requestResult opts fs rr).storeRoots ∧
      List.Pairwise PLt (requestResult opts fs rr).deadLinks := by
  unfold requestResult
  rcases followPathsToStore_sorted opts fs (standardRoots opts) with ⟨hs, hd⟩
  refine ⟨?_, hd⟩
  exact SortedRoots_mergeRoots _ rr hs (getRuntimeRoots_sorted opts proc rr h).2

/-- C3 (amended): every key of the roots map served for a request lies under
the configured store root (`isInStore`), from whichever probe it came; but —
as the counterexample shows — a key may extend below the store object with
further subpath components, and need not match the store-object lexical
rule, so the claim's stronger key shape does not hold. -/
theorem c3_amended (opts : GlobalOpts) (fs : FSys) (proc : ProcFS) (rr : Roots) (k : FsPath)
    (h : getRuntimeRoots opts proc = .ok rr)
    (hk : k ∈ (requestResult opts fs rr).storeRoots.map (·.1)) :
    isInStore opts.storeDir k = true := by
  rcases List.mem_map.1 hk with ⟨kv, hkv, rfl⟩
  exact requestResult_keys_inStore opts fs proc rr h kv hkv

/-- Witness for `c3_amended` on the C3 scenario: the key `/s/obj/sub` that
falsifies the original claim does satisfy the amended one. -/
theorem c3_amended_witness :
    isInStore optsScenario.storeDir ["/", "s", "obj", "sub"] = true := by
  refine c3_amended optsScenario fsSubPath procNone [] _ rfl ?_
  have h : (requestResult optsScenario fsSubPath []).storeRoots =
      [(["/", "s", "obj", "sub"], [["/", "v", "gcroots", "a"]])] := by
    simp [requestResult, followPathsToStore, followPathToStoreOuter, standardRoots,
      maxRecursionLevel, followPathToStore, statusAt, fsSubPath, descendantsOf, List.filter,
      List.find?, pathAppend, parentPath, isInStore, regularProbe, filename, rootsInsert,
      setInsert, pathLt, strLt, charListLt, List.attach, List.attachWith, List.pmap,
      List.foldl, mergeRoots, optsScenario]
  rw [h]
  simp

/-! ## Lookup characterization of the merge step (claim C5) -/

theorem lookupRoots_nil (k : FsPath) : lookupRoots [] k = none := rfl

theorem lookupRoots_cons (k1 : FsPath) (vs1 : List FsPath) (rest : Roots) (k2 : FsPath) :
    lookupRoots ((k1, vs1) :: rest) k2 =
      if k1 = k2 then some vs1 else lookupRoots rest k2 := by
  unfold lookupRoots
  by_cases h : k1 = k2
  · rw [if_pos h]
    rw [List.find?_cons_of_pos _ (by simpa using h)]
    rfl
  · rw [if_neg h]
    rw [List.find?_cons_of_neg _ (by simpa using h)]

theorem lookupRoots_none_of_forall_gt (m : Roots) (k : FsPath)
    (hall : ∀ kv ∈ m, PLt k kv.1) : lookupRoots m k = none := by
  induction m with
  | nil => rfl
  | cons e rest ih =>
    obtain ⟨k1, vs1⟩ := e
    rw [lookupRoots_cons]
    have hlt : PLt k k1 := hall (k1, vs1) (List.mem_cons_self _ _)
    have hne : k1 ≠ k := by
      intro hcontra
      subst hcontra
      exact absurd hlt (by simp [PLt, pathLt_irrefl])
    rw [if_neg hne]
    exact ih (fun kv hkv => hall kv (List.mem_cons_of_mem _ hkv))

theorem lookupRoots_mapInsertKeep (k : FsPath) (vs : List FsPath) (m : Roots)
    (hm : List.Pairwise (fun a b => PLt a.1 b.1) m) (k2 : FsPath) :
    lookupRoots (mapInsertKeep k vs m) k2 =
      if k2 = k then (lookupRoots m k).or (some vs) else lookupRoots m k2 := by
  induction m with
  | nil =>
    simp only [mapInsertKeep, lookupRoots_cons, lookupRoots_nil]
    by_cases h : k2 = k
    · subst h
      simp
    · simp [h, show ¬ k = k2 from fun hc => h hc.symm]
  | cons e rest ih =>
    obtain ⟨k1, vs1⟩ := e
    rcases List.pairwise_cons.1 hm with ⟨hz, hzs⟩
    simp only [mapInsertKeep]
    by_cases h1 : pathLt k k1 = true
    · rw [if_pos h1]
      have hnone : lookupRoots ((k1, vs1) :: rest) k = none := by
        refine lookupRoots_none_of_forall_gt _ _ ?_
        intro kv hkv
        rcases List.mem_cons.1 hkv with rfl | hkv2
        · exact h1
        · exact pathLt_trans _ _ _ h1 (hz kv hkv2)
      by_cases h2 : k2 = k
      · subst h2
        simp [lookupRoots_cons, hnone]
      · simp [lookupRoots_cons, h2, show ¬ k = k2 from fun hc => h2 hc.symm]
    · rw [if_neg h1]
      by_cases h2 : k = k1
      · subst h2
        rw [if_pos rfl]
        by_cases h3 : k2 = k
        · subst h3
          simp [lookupRoots_cons]
        · simp [lookupRoots_cons, h3, show ¬ k = k2 from fun hc => h3 hc.symm]
      · rw [if_neg h2]
        by_cases h3 : k2 = k
        · subst h3
          have hne : ¬ k1 = k2 := fun hc => h2 hc.symm
          simp only [lookupRoots_cons, if_neg hne, if_pos rfl]
          rw [ih hzs]
          simp
        · by_cases h4 : k1 = k2
          · simp only [lookupRoots_cons, if_pos h4, if_neg h3]
          · simp only [lookupRoots_cons, if_neg h4, if_neg h3]
            rw [ih hzs]
            simp [h3]

/-- C5 (amended): the merge at source line 361 behaves as `std::map::insert`
does: a key only in the runtime scanner's map is added with its whole set;
for a key already present in the tracer's map the tracer's set is kept
unchanged and the runtime scanner's set for that key is dropped.  Stated as
a lookup equation: lookup in the merged map is lookup in the tracer's map,
falling back to the scanner's map only when the tracer has no such key. -/
theorem c5_amended (base extra : Roots)
    (hb : List.Pairwise (fun a b => PLt a.1 b.1) base) (k : FsPath) :
    lookupRoots (mergeRoots base extra) k =
      (lookupRoots base k).or (lookupRoots extra k) := by
  induction extra generalizing base with
  | nil =>
    show lookupRoots base k = (lookupRoots base k).or (lookupRoots [] k)
    rw [lookupRoots_nil]
    cases lookupRoots base k <;> rfl
  | cons e rest ih =>
    obtain ⟨ke, ve⟩ := e
    show lookupRoots (mergeRoots (mapInsertKeep ke ve base) rest) k = _
    rw [ih (mapInsertKeep ke ve base) (mapInsertKeep_keys_pairwise ke ve base hb)]
    rw [lookupRoots_mapInsertKeep ke ve base hb k, lookupRoots_cons]
    by_cases h1 : k = ke
    · subst h1
      rw [if_pos rfl, if_pos rfl, Option.or_assoc]
      congr 1
    · rw [if_neg h1, if_neg (fun hc => h1 hc.symm)]

/-- Witness for `c5_amended` on the C5 scenario maps: for the shared key
`/s/obj`, the merged lookup is the tracer's set, the scanner's set being the
fallback that is not reached. -/
theorem c5_amended_witness :
    lookupRoots (mergeRoots [(["/", "s", "obj"], [["/", "v", "gcroots", "a"]])]
        [(["/", "s", "obj"], [["/", "proc", "42", "exe"]])]) ["/", "s", "obj"] =
      (lookupRoots [(["/", "s", "obj"], [["/", "v", "gcroots", "a"]])] ["/", "s", "obj"]).or
        (lookupRoots [(["/", "s", "obj"], [["/", "proc", "42", "exe"]])] ["/", "s", "obj"]) :=
  c5_amended _ _ (List.pairwise_singleton _ _) _

/-! ## The emitted store-object section as a list of edges (claims C8, C10) -/

/-- The (store path, external root) pairs, one per emitted line, in the
order the serialization loop of `main` walks the map. -/
def storeRootsEdges (m : Roots) : List (FsPath × FsPath) :=
  m.flatMap (fun kv => kv.2.map (fun v => (kv.1, v)))

/-- Lexicographic order on emitted store-section lines: ascending store
path, and ascending external root within one store path. -/
def EdgeLt (a b : FsPath × FsPath) : Prop :=
  PLt a.1 b.1 ∨ (a.1 = b.1 ∧ PLt a.2 b.2)

theorem storeRootsEdges_mem (m : Roots) (e : FsPath × FsPath)
    (h : e ∈ storeRootsEdges m) : ∃ kv ∈ m, e.1 = kv.1 ∧ e.2 ∈ kv.2 := by
  unfold storeRootsEdges at h
  rcases List.mem_flatMap.1 h with ⟨kv, hkv, hmem⟩
  rcases List.mem_map.1 hmem with ⟨v, hv, rfl⟩
  exact ⟨kv, hkv, rfl, hv⟩

theorem storeRootsEdges_pairwise :
    ∀ m : Roots, SortedRoots m → List.Pairwise EdgeLt (storeRootsEdges m) := by
  intro m
  induction m with
  | nil =>
    intro _
    simp [storeRootsEdges]
  | cons kv rest ih =>
    intro h
    obtain ⟨hkeys, hvals⟩ := h
    rcases List.pairwise_cons.1 hkeys with ⟨hk, hkrest⟩
    have ih2 : List.Pairwise EdgeLt (storeRootsEdges rest) :=
      ih ⟨hkrest, fun kv2 h2 => hvals kv2 (List.mem_cons_of_mem _ h2)⟩
    unfold storeRootsEdges
    rw [List.flatMap_cons]
    refine List.pairwise_append.2 ⟨?_, ih2, ?_⟩
    · refine List.pairwise_map.2 ?_
      refine (hvals kv (List.mem_cons_self _ _)).imp ?_
      intro a b hab
      exact Or.inr ⟨rfl, hab⟩
    · intro a ha b hb
      rcases List.mem_map.1 ha with ⟨v, _, rfl⟩
      rcases storeRootsEdges_mem rest b hb with ⟨kv2, hkv2, hb1, _⟩
      left
      rw [hb1]
      exact hk kv2 hkv2

/-! ## Closed form of the serialization loops (claim C8) -/

theorem foldl_append_eq_flatMap {α β : Type} (f : α → List β) (l : List α) :
    ∀ init : List β, l.foldl (fun acc x => acc ++ f x) init = init ++ l.flatMap f := by
  induction l with
  | nil =>
    intro init
    simp
  | cons a t ih =>
    intro init
    simp only [List.foldl_cons, List.flatMap_cons]
    rw [ih]
    simp [List.append_assoc]

theorem storeChunks_eq (m : Roots) :
    ∀ init : List String,
      m.foldl (fun acc kv =>
        kv.2.foldl (fun acc2 v =>
          acc2 ++ [pathToString kv.1, "\t", pathToString v, "\n"]) acc) init =
      init ++ (storeRootsEdges m).flatMap
        (fun e => [pathToString e.1, "\t", pathToString e.2, "\n"]) := by
  induction m with
  | nil =>
    intro init
    simp [storeRootsEdges]
  | cons kv rest ih =>
    intro init
    simp only [List.foldl_cons]
    rw [foldl_append_eq_flatMap
      (fun v => [pathToString kv.1, "\t", pathToString v, "\n"]) kv.2 init]
    rw [ih]
    unfold storeRootsEdges
    rw [List.flatMap_cons, List.flatMap_append, List.flatMap_map, List.append_assoc]

theorem serializeChunks_eq (t : TraceResult) :
    serializeChunks t =
      (storeRootsEdges t.storeRoots).flatMap
        (fun e => [pathToString e.1, "\t", pathToString e.2, "\n"]) ++
      ["\n"] ++
      t.deadLinks.flatMap (fun d => [pathToString d, "\n"]) := by
  unfold serializeChunks
  rw [storeChunks_eq t.storeRoots [],
    foldl_append_eq_flatMap (fun d => [pathToString d, "\n"]) t.deadLinks []]
  simp

theorem storeRootsEdges_cons (kv : FsPath × List FsPath) (rest : Roots) :
    storeRootsEdges (kv :: rest) =
      kv.2.map (fun v => (kv.1, v)) ++ storeRootsEdges rest := by
  unfold storeRootsEdges
  rw [List.flatMap_cons]

theorem filter_key_block (K K2 : FsPath) (vs : List FsPath) :
    ((vs.map (fun v => (K, v))).filter (fun e => e.1 = K2)).length =
      if K = K2 then vs.length else 0 := by
  induction vs with
  | nil => simp
  | cons v t ih =>
    by_cases h : K = K2
    · subst h
      simp only [List.map_cons, List.filter_cons]
      simp [ih]
    · simp only [List.map_cons, List.filter_cons]
      simp [h, ih]

theorem storeRootsEdges_count :
    ∀ m : Roots, List.Pairwise (fun a b => PLt a.1 b.1) m →
      ∀ kv ∈ m, ((storeRootsEdges m).filter (fun e => e.1 = kv.1)).length = kv.2.length := by
  intro m
  induction m with
  | nil =>
    intro _ kv hkv
    exact absurd hkv (List.not_mem_nil kv)
  | cons kv0 rest ih =>
    intro hkeys kv hkv
    rcases List.pairwise_cons.1 hkeys with ⟨hk, hkrest⟩
    rw [storeRootsEdges_cons, List.filter_append, List.length_append]
    rcases List.mem_cons.1 hkv with rfl | htail
    · have hzero :
          ((storeRootsEdges rest).filter (fun e => e.1 = kv.1)).length = 0 := by
        rw [List.length_eq_zero, List.filter_eq_nil_iff]
        intro e he
        rcases storeRootsEdges_mem rest e he with ⟨kv2, hkv2, he1, _⟩
        have hlt : PLt kv.1 kv2.1 := hk kv2 hkv2
        simp only [decide_eq_true_eq]
        intro hcontra
        rw [← hcontra, he1] at hlt
        exact absurd hlt (by simp [PLt, pathLt_irrefl])
      rw [hzero, filter_key_block kv.1 kv.1 kv.2, if_pos rfl]
      omega
    · have hne : kv0.1 ≠ kv.1 := by
        intro hcontra
        have hlt : PLt kv0.1 kv.1 := hk kv htail
        rw [hcontra] at hlt
        exact absurd hlt (by simp [PLt, pathLt_irrefl])
      rw [filter_key_block kv0.1 kv.1 kv0.2, if_neg hne, ih hkrest kv htail]
      omega

/-- C8: every response is laid out as all store-object lines first — a store
object with `k` external roots on exactly `k` lines, each line the four sent
chunks store path, tab, root, newline — then exactly one separator newline,
present even when both sections are empty, then the dead-link lines; no
dead-link chunk precedes the separator. -/
theorem c8_response_layout (opts : GlobalOpts) (fs : FSys) (proc : ProcFS) (rr : Roots)
    (h : getRuntimeRoots opts proc = .ok rr) :
    serializeChunks (requestResult opts fs rr) =
      (storeRootsEdges (requestResult opts fs rr).storeRoots).flatMap
        (fun e => [pathToString e.1, "\t", pathToString e.2, "\n"]) ++
      ["\n"] ++
      (requestResult opts fs rr).deadLinks.flatMap (fun d => [pathToString d, "\n"]) ∧
    ∀ kv ∈ (requestResult opts fs rr).storeRoots,
      ((storeRootsEdges (requestResult opts fs rr).storeRoots).filter
        (fun e => e.1 = kv.1)).length = kv.2.length := by
  constructor
  · exact serializeChunks_eq (requestResult opts fs rr)
  · exact storeRootsEdges_count (requestResult opts fs rr).storeRoots
      (requestResult_sorted opts fs proc rr h).1.1

/-- Witness for `c8_response_layout` on the two-hop scenario. -/
theorem c8_response_layout_witness :
    serializeChunks (requestResult optsScenario fsTwoHop []) =
      (storeRootsEdges (requestResult optsScenario fsTwoHop []).storeRoots).flatMap
        (fun e => [pathToString e.1, "\t", pathToString e.2, "\n"]) ++
      ["\n"] ++
      (requestResult optsScenario fsTwoHop []).deadLinks.flatMap
        (fun d => [pathToString d, "\n"]) ∧
    ∀ kv ∈ (requestResult optsScenario fsTwoHop []).storeRoots,
      ((storeRootsEdges (requestResult optsScenario fsTwoHop []).storeRoots).filter
        (fun e => e.1 = kv.1)).length = kv.2.length :=
  c8_response_layout optsScenario fsTwoHop procNone [] rfl

/-- C10: within every response the store-object section is emitted sorted —
strictly ascending in (store path, external root) under the component-wise
lexicographic path order of `fs::path::operator<` — and the dead-link
section is strictly ascending as well, because the roots map is an ordered
`std::map` of ordered `std::set`s.  Together with the purity of the scan
result in the filesystem observations, two scans observing an unchanged
filesystem serialize to byte-identical responses, not merely set-equal
ones. -/
theorem c10_response_sorted (opts : GlobalOpts) (fs : FSys) (proc : ProcFS) (rr : Roots)
    (h : getRuntimeRoots opts proc = .ok rr) :
    List.Pairwise EdgeLt (storeRootsEdges (requestResult opts fs rr).storeRoots) ∧
    List.Pairwise PLt (requestResult opts fs rr).deadLinks := by
  rcases requestResult_sorted opts fs proc rr h with ⟨hs, hd⟩
  exact ⟨storeRootsEdges_pairwise _ hs, hd⟩

/-- Witness for `c10_response_sorted` on the two-hop scenario. -/
theorem c10_response_sorted_witness :
    List.Pairwise EdgeLt (storeRootsEdges (requestResult optsScenario fsTwoHop []).storeRoots) ∧
    List.Pairwise PLt (requestResult optsScenario fsTwoHop []).deadLinks :=
  c10_response_sorted optsScenario fsTwoHop procNone [] rfl
